import Mathlib

/-!
Verification of the ElectroInit scaffold generator (`src/init.js`).

The JavaScript source is shallowly embedded: strings are Lean `String`s
(worked on through their character lists), JS numbers arising here are exact
integers (all values involved are small integers), `null`/`undefined`/`NaN`
are modelled with `Option`, and the interactive `main` flow is modelled as a
pure function from an abstract world (flags, prompt answers, filesystem
state, subprocess exit statuses) to a trace of effects plus an exit code.
-/

/-! ### JS primitives used by the version helpers -/

/-- JS `parseInt(s, 10)` returns `NaN` (here `none`) when no leading digits
are found after optional whitespace and an optional sign; otherwise the
signed value of the maximal leading digit run. -/
def isJsSpace (c : Char) : Bool :=
  c = ' ' || c = '\t' || c = '\n' || c = '\r' || c = '\x0b' || c = '\x0c'

/-- Value of a digit run, most significant first (base 10). -/
def digitsToNat (l : List Char) : Nat :=
  l.foldl (fun acc c => acc * 10 + (c.toNat - '0'.toNat)) 0

/-- The maximal leading digit run of `l`, as a number; `none` when `l` does
not start with a digit (JS `NaN`). -/
def parseDigits (l : List Char) : Option Nat :=
  let ds := l.takeWhile Char.isDigit
  if ds.isEmpty then none else some (digitsToNat ds)

/-- Sign handling of JS `parseInt`: an optional `-`/`+` prefix, then the
maximal digit run; `none` models `NaN` (no digits found). -/
def jsParseIntSigned : List Char → Option Int
  | [] => none
  | c :: rest =>
    if c = '-' then (parseDigits rest).map (fun n => -(n : Int))
    else if c = '+' then (parseDigits rest).map (fun n => (n : Int))
    else (parseDigits (c :: rest)).map (fun n => (n : Int))

/-- JS `parseInt(s, 10)` on the characters of `s`: skip leading whitespace,
read an optional sign, then the maximal digit run; `none` models `NaN`. -/
def jsParseInt (l : List Char) : Option Int :=
  jsParseIntSigned (l.dropWhile isJsSpace)

/-- JS single-character `String.prototype.split`: `splitOnChar sep l` is
`l` cut at every occurrence of `sep` (so `"".split(".") = [""]`,
`".".split(".") = ["", ""]`). -/
def splitOnChar (sep : Char) : List Char → List (List Char)
  | [] => [[]]
  | c :: rest =>
    let r := splitOnChar sep rest
    if c = sep then [] :: r
    else
      match r with
      | [] => [[c]]
      | h :: t => (c :: h) :: t

/-- JS `x || d` on a number that may be `undefined`/`NaN` (`none`) — both
are falsy, as is `0`, in which case the default is taken. -/
def jsOrNum (x : Option Int) (d : Int) : Int :=
  match x with
  | none => d
  | some v => if v = 0 then d else v

/-- JS `a || b` on a string that may be `undefined`/`null` (`none`) — the
empty string is falsy, so it also falls through to `b`. -/
def jsOrS (a : Option String) (b : String) : String :=
  match a with
  | none => b
  | some s => if s = "" then b else s

/-! ### SemverLite (`src/init.js:67-98`) -/

/-- `version.startsWith("v") ? version.slice(1) : version` on characters
(`startsWith` of a one-character string is a first-character test). -/
def stripLeadingV : List Char → List Char
  | [] => []
  | c :: rest => if c = 'v' then rest else c :: rest

/-- `normalizeVersion` (`src/init.js:74-77`): empty/absent input gives `""`,
otherwise a single leading `"v"` is dropped. -/
def normalizeVersionL (l : List Char) : List Char :=
  if l = [] then [] else stripLeadingV l

/-- `normalizeVersion` at the `String` level. -/
def normalizeVersion (s : String) : String :=
  ⟨normalizeVersionL s.data⟩

/-- The parsed version triple produced by `parseSemver`. The source object
has exactly the fields `major`, `minor`, `patch`; there is no pre-release
field on parsed versions. -/
structure Semver where
  major : Int
  minor : Int
  patch : Int
deriving DecidableEq, Repr

/-- `parseSemver` (`src/init.js:79-88`) on characters: normalize, keep the
part before the first `"-"`, split on `"."`, `parseInt` each part, and
default each missing/`NaN`/zero component to `0` via JS `||`. -/
def parseSemverL (l : List Char) : Semver :=
  let clean := normalizeVersionL l
  let core := (splitOnChar '-' clean).headD []
  let parts := (splitOnChar '.' core).map jsParseInt
  { major := jsOrNum (parts.getD 0 none) 0
    minor := jsOrNum (parts.getD 1 none) 0
    patch := jsOrNum (parts.getD 2 none) 0 }

/-- `parseSemver` at the `String` level. -/
def parseSemver (s : String) : Semver :=
  parseSemverL s.data

/-- `compareSemver` (`src/init.js:90-94`): returns the first nonzero
component difference (a JS comparator returning arbitrary-signed numbers,
not merely `-1/0/1`). -/
def compareSemver (a b : Semver) : Int :=
  if a.major ≠ b.major then a.major - b.major
  else if a.minor ≠ b.minor then a.minor - b.minor
  else a.patch - b.patch

/-- `isPreRelease` (`src/init.js:96-98`): the normalized string contains
`"-"`. -/
def isPreRelease (s : String) : Bool :=
  (normalizeVersionL s.data).contains '-'

/-- `parseMajor` (`src/init.js:67-72`): `null` for empty input, then the
`parseInt` of the first dot-component after stripping a leading `"v"`;
`NaN` (non-finite) maps back to `null`. -/
def parseMajorL (l : List Char) : Option Int :=
  if l = [] then none
  else jsParseInt ((splitOnChar '.' (stripLeadingV l)).headD [])

/-- `parseMajor` at the `String` level. -/
def parseMajor (s : String) : Option Int :=
  parseMajorL s.data

/-! ### Basic facts about the split/parse helpers -/

theorem splitOnChar_ne_nil (sep : Char) (l : List Char) :
    splitOnChar sep l ≠ [] := by
  induction l with
  | nil => simp [splitOnChar]
  | cons c rest ih =>
    simp only [splitOnChar]
    by_cases h : c = sep
    · simp [h]
    · simp only [h, if_false]
      cases splitOnChar sep rest with
      | nil => simp
      | cons h t => simp

theorem mem_splitOnChar_not_sep (sep : Char) (l : List Char) :
    ∀ p ∈ splitOnChar sep l, sep ∉ p := by
  induction l with
  | nil =>
    intro p hp
    simp [splitOnChar] at hp
    simp [hp]
  | cons c rest ih =>
    intro p hp
    simp only [splitOnChar] at hp
    by_cases h : c = sep
    · rw [if_pos h] at hp
      rcases List.mem_cons.mp hp with hp | hp
      · simp [hp]
      · exact ih p hp
    · rw [if_neg h] at hp
      rcases hr : splitOnChar sep rest with _ | ⟨q, t⟩
      · exact absurd hr (splitOnChar_ne_nil sep rest)
      · rw [hr] at hp
        rcases List.mem_cons.mp hp with hp | hp
        · subst hp
          intro hm
          rcases List.mem_cons.mp hm with hm | hm
          · exact h hm.symm
          · exact ih q (by rw [hr]; exact List.mem_cons_self q t) hm
        · exact ih p (by rw [hr]; exact List.mem_cons_of_mem q hp)

theorem mem_splitOnChar_subset (sep : Char) (l : List Char) :
    ∀ p ∈ splitOnChar sep l, ∀ c ∈ p, c ∈ l := by
  induction l with
  | nil =>
    intro p hp
    simp [splitOnChar] at hp
    simp [hp]
  | cons c rest ih =>
    intro p hp
    simp only [splitOnChar] at hp
    by_cases h : c = sep
    · rw [if_pos h] at hp
      rcases List.mem_cons.mp hp with hp | hp
      · simp [hp]
      · intro d hd
        exact List.mem_cons_of_mem _ (ih p hp d hd)
    · rw [if_neg h] at hp
      rcases hr : splitOnChar sep rest with _ | ⟨q, t⟩
      · exact absurd hr (splitOnChar_ne_nil sep rest)
      · rw [hr] at hp
        rcases List.mem_cons.mp hp with hp | hp
        · subst hp
          intro d hd
          rcases List.mem_cons.mp hd with hd | hd
          · simp [hd]
          · exact List.mem_cons_of_mem _
              (ih q (by rw [hr]; exact List.mem_cons_self q t) d hd)
        · intro d hd
          exact List.mem_cons_of_mem _
            (ih p (by rw [hr]; exact List.mem_cons_of_mem q hp) d hd)

theorem jsParseInt_nonneg {l : List Char} (h : '-' ∉ l) {v : Int}
    (hv : jsParseInt l = some v) : 0 ≤ v := by
  have hsub : ∀ c ∈ l.dropWhile isJsSpace, c ∈ l :=
    fun c hc => (List.dropWhile_sublist isJsSpace).mem hc
  unfold jsParseInt at hv
  rcases hd : l.dropWhile isJsSpace with _ | ⟨c, rest⟩
  · rw [hd] at hv
    simp [jsParseIntSigned] at hv
  · rw [hd] at hv
    rw [jsParseIntSigned] at hv
    have hcl : c ∈ l := hsub c (by rw [hd]; exact List.mem_cons_self c rest)
    have hcne : c ≠ '-' := fun hc => h (hc ▸ hcl)
    rw [if_neg hcne] at hv
    by_cases hplus : c = '+'
    · rw [if_pos hplus] at hv
      rcases hp : parseDigits rest with _ | n
      · rw [hp] at hv; simp at hv
      · rw [hp] at hv
        simp at hv
        omega
    · rw [if_neg hplus] at hv
      rcases hp : parseDigits (c :: rest) with _ | n
      · rw [hp] at hv; simp at hv
      · rw [hp] at hv
        simp at hv
        omega

/-! ### The lexicographic character of `compareSemver` -/

/-- Modelled from the spec: strict lexicographic order over
`(major, minor, patch)` in that priority order (§4.1). -/
def lexLt (a b : Semver) : Prop :=
  a.major < b.major ∨
    (a.major = b.major ∧
      (a.minor < b.minor ∨ (a.minor = b.minor ∧ a.patch < b.patch)))

instance : DecidableRel lexLt := fun a b => by
  unfold lexLt
  infer_instance

theorem compareSemver_neg_iff (a b : Semver) :
    compareSemver a b < 0 ↔ lexLt a b := by
  unfold compareSemver lexLt
  split_ifs <;> omega

theorem compareSemver_eq_zero_iff (a b : Semver) :
    compareSemver a b = 0 ↔
      a.major = b.major ∧ a.minor = b.minor ∧ a.patch = b.patch := by
  unfold compareSemver
  split_ifs <;> omega

theorem compareSemver_pos_iff (a b : Semver) :
    0 < compareSemver a b ↔ lexLt b a := by
  unfold compareSemver lexLt
  split_ifs <;> omega

theorem compareSemver_le_zero_iff (a b : Semver) :
    compareSemver a b ≤ 0 ↔
      a.major < b.major ∨
        (a.major = b.major ∧
          (a.minor < b.minor ∨ (a.minor = b.minor ∧ a.patch ≤ b.patch))) := by
  unfold compareSemver
  split_ifs <;> omega

theorem compareSemver_self (a : Semver) : compareSemver a a = 0 := by
  unfold compareSemver
  split_ifs <;> omega

/-! ### Non-negativity of parsed components -/

theorem jsOrNum_nonneg {x : Option Int}
    (hx : ∀ v, x = some v → 0 ≤ v) : 0 ≤ jsOrNum x 0 := by
  cases x with
  | none => simp [jsOrNum]
  | some v =>
    have := hx v rfl
    simp only [jsOrNum]
    split_ifs <;> omega

theorem headD_mem_splitOnChar (sep : Char) (l : List Char) :
    (splitOnChar sep l).headD [] ∈ splitOnChar sep l := by
  rcases hs : splitOnChar sep l with _ | ⟨p, t⟩
  · exact absurd hs (splitOnChar_ne_nil sep l)
  · simp

theorem parseSemverL_core_no_dash (l : List Char) :
    '-' ∉ (splitOnChar '-' (normalizeVersionL l)).headD [] :=
  mem_splitOnChar_not_sep '-' (normalizeVersionL l)
    _ (headD_mem_splitOnChar '-' (normalizeVersionL l))

theorem parseSemverL_part_nonneg (l : List Char) (i : Nat) :
    ∀ v,
      (((splitOnChar '.'
          ((splitOnChar '-' (normalizeVersionL l)).headD [])).map
            jsParseInt).getD i none) = some v → 0 ≤ v := by
  intro v hv
  set core := (splitOnChar '-' (normalizeVersionL l)).headD [] with hcore
  rw [List.getD_eq_getElem?_getD] at hv
  rcases hx : ((splitOnChar '.' core).map jsParseInt)[i]? with _ | x
  · rw [hx] at hv
    simp at hv
  · rw [hx] at hv
    simp only [Option.getD_some] at hv
    subst hv
    have hmem : some v ∈ (splitOnChar '.' core).map jsParseInt :=
      List.getElem?_mem hx
    rcases List.mem_map.mp hmem with ⟨p, hp, hpv⟩
    have hnd : '-' ∉ p := by
      intro hin
      exact parseSemverL_core_no_dash l
        (mem_splitOnChar_subset '.' core p hp '-' hin)
    exact jsParseInt_nonneg hnd hpv

/-- C6 — `parseSemver` is total (it is a Lean `def`, hence never raises),
every component it produces is a non-negative integer, missing components
default to `0` (`"5"` parses to `{5,0,0}`), and a garbage string parses to
`{0,0,0}`. -/
theorem parseSemver_total_nonneg :
    (∀ s : String,
      0 ≤ (parseSemver s).major ∧ 0 ≤ (parseSemver s).minor ∧
        0 ≤ (parseSemver s).patch) ∧
    parseSemver "5" = ⟨5, 0, 0⟩ ∧
    parseSemver "garbage" = ⟨0, 0, 0⟩ := by
  refine ⟨fun s => ?_, by decide, by decide⟩
  refine ⟨?_, ?_, ?_⟩
  · exact jsOrNum_nonneg (parseSemverL_part_nonneg s.data 0)
  · exact jsOrNum_nonneg (parseSemverL_part_nonneg s.data 1)
  · exact jsOrNum_nonneg (parseSemverL_part_nonneg s.data 2)

/-! ### C5: the comparator's range and order -/

/-- C5 counterexample — `compareSemver` does not return a value in
`{-1, 0, 1}`: on `parse("5.0.0")` and `parse("2.0.0")` it returns the
component difference `3`. -/
theorem compareSemver_not_in_sign_set :
    compareSemver (parseSemver "5.0.0") (parseSemver "2.0.0") = 3 ∧
      ¬(compareSemver (parseSemver "5.0.0") (parseSemver "2.0.0") = -1 ∨
        compareSemver (parseSemver "5.0.0") (parseSemver "2.0.0") = 0 ∨
        compareSemver (parseSemver "5.0.0") (parseSemver "2.0.0") = 1) := by
  decide

/-- C5 (amended) — `compareSemver` returns an integer (not necessarily in
`{-1,0,1}`) whose sign orders its arguments strictly lexicographically over
`(major, minor, patch)` in that priority order; parsed versions carry no
pre-release field at all, so the pre-release flag plays no part; and
`compare(parse("2.10.0"), parse("2.9.9")) > 0`. -/
theorem compareSemver_sign_lex :
    (∀ a b : Semver,
      (compareSemver a b < 0 ↔ lexLt a b) ∧
      (compareSemver a b = 0 ↔
        a.major = b.major ∧ a.minor = b.minor ∧ a.patch = b.patch) ∧
      (0 < compareSemver a b ↔ lexLt b a)) ∧
    0 < compareSemver (parseSemver "2.10.0") (parseSemver "2.9.9") := by
  refine ⟨fun a b => ⟨compareSemver_neg_iff a b,
    compareSemver_eq_zero_iff a b, compareSemver_pos_iff a b⟩, by decide⟩

/-! ### C7: the leading-marker stripping -/

/-- C7 counterexample — parsing does not strip an arbitrary leading
non-digit marker: `'='` is not a digit, yet `parse("=" + "5.0.0")` is
`{0,0,0}` while `parse("5.0.0")` is `{5,0,0}`. -/
theorem parseSemver_eq_marker_not_stripped :
    Char.isDigit '=' = false ∧
    parseSemver ("=" ++ "5.0.0") = ⟨0, 0, 0⟩ ∧
    parseSemver "5.0.0" = ⟨5, 0, 0⟩ ∧
    parseSemver ("=" ++ "5.0.0") ≠ parseSemver "5.0.0" := by
  decide

/-- C7 (amended) — only the single marker character `"v"` is stripped: for
every string `s` not itself starting with `'v'`, `parse("v" + s)` equals
`parse(s)` (so `"v5.0.0"` parses to `{5,0,0}`), while any other leading
non-digit marker is kept and makes the numeric part unparseable (e.g.
`"=5.0.0"` parses to `{0,0,0}`). -/
theorem parseSemver_strips_only_v :
    (∀ s : String, s.data.head? ≠ some 'v' →
      parseSemver ("v" ++ s) = parseSemver s) ∧
    parseSemver "v5.0.0" = ⟨5, 0, 0⟩ ∧
    parseSemver "=5.0.0" = ⟨0, 0, 0⟩ := by
  refine ⟨fun s hs => ?_, by decide, by decide⟩
  have hdat : ("v" ++ s).data = 'v' :: s.data := by
    rw [String.data_append]
    rfl
  have h1 : normalizeVersionL ('v' :: s.data) = s.data := by
    simp [normalizeVersionL, stripLeadingV]
  have h2 : normalizeVersionL s.data = s.data := by
    rcases hd : s.data with _ | ⟨c, t⟩
    · simp [normalizeVersionL]
    · have hc : c ≠ 'v' := by
        intro hcv
        exact hs (by rw [hd, hcv]; rfl)
      simp [normalizeVersionL, stripLeadingV, hc]
  unfold parseSemver parseSemverL
  rw [hdat, h1, h2]

/-- C7 witness — the amended stripping law applied at `s = "5.0.0"`. -/
theorem parseSemver_strips_only_v_witness :
    parseSemver ("v" ++ "5.0.0") = parseSemver "5.0.0" :=
  parseSemver_strips_only_v.1 "5.0.0" (by decide)

/-! ### ReleaseMatcher (`src/init.js:163-191`) -/

/-- One entry of the remote release feed, restricted to the fields
`pickElectronVersion` reads: `r.version`, `r.tag_name`, `r.node` and
`r.deps && r.deps.node` (the latter collapsed to `depsNode`, `none` when
`deps` or `deps.node` is absent). -/
structure RawRelease where
  version : Option String
  tag_name : Option String
  node : Option String
  depsNode : Option String
deriving DecidableEq

/-- The normalized candidate built by the `.map` in `pickElectronVersion`
(`src/init.js:165-173`). -/
structure Candidate where
  version : String
  node : String
  nodeMajor : Option Int
deriving DecidableEq

/-- The `match` tag of the returned object (`"exact"`/`"lower"`/`"any"`). -/
inductive MatchKind where
  | exact
  | lower
  | any
deriving DecidableEq

/-- The object returned by `pickElectronVersion`: the winning candidate
spread together with its `match` tag. -/
structure Picked where
  version : String
  node : String
  nodeMajor : Option Int
  matchKind : MatchKind
deriving DecidableEq

/-- `src/init.js:165-173`: `version = normalizeVersion(r.version ||
r.tag_name || "")`, `node = r.node || (r.deps && r.deps.node) || ""`,
`nodeMajor = parseMajor(node)`. -/
def toCandidate (r : RawRelease) : Candidate :=
  let version := normalizeVersion (jsOrS r.version (jsOrS r.tag_name ""))
  let node := jsOrS r.node (jsOrS r.depsNode "")
  { version := version, node := node, nodeMajor := parseMajor node }

/-- The two candidate filters (`src/init.js:174-175`): a usable version
string and a non-`null` bundled-node major, then no pre-releases. -/
def candidatePool (releases : List RawRelease) : List Candidate :=
  ((releases.map toCandidate).filter
      (fun r => !(r.version == "") && !(r.nodeMajor == none))).filter
    (fun r => !(isPreRelease r.version))

/-- JS `ToNumber` on an `int | null` operand of `<`: `null` converts
to `0` (`src/init.js:183` compares `r.nodeMajor < nodeMajor` even when
`nodeMajor` is `null`). -/
def jsNum (x : Option Int) : Int :=
  x.getD 0

/-- The Exact pool (`src/init.js:177`): strict equality `===` against the
possibly-`null` local major. -/
def exactPool (releases : List RawRelease) (m : Option Int) : List Candidate :=
  (candidatePool releases).filter (fun r => r.nodeMajor == m)

/-- The Lower pool (`src/init.js:183`): JS `<` with `null` as `0`. -/
def lowerPool (releases : List RawRelease) (m : Option Int) : List Candidate :=
  (candidatePool releases).filter (fun r => decide (jsNum r.nodeMajor < jsNum m))

/-- The sort comparator of `src/init.js:179/185/189` read as a relation:
`a` may stay before `b` iff `compareSemver(parse(b), parse(a)) ≤ 0`. -/
def rDesc (a b : Candidate) : Prop :=
  compareSemver (parseSemver b.version) (parseSemver a.version) ≤ 0

instance : DecidableRel rDesc := fun a b => by
  unfold rDesc
  infer_instance

instance : IsTotal Candidate rDesc :=
  ⟨fun a b => by
    unfold rDesc
    simp only [compareSemver_le_zero_iff]
    omega⟩

instance : IsTrans Candidate rDesc :=
  ⟨fun a b c hab hbc => by
    unfold rDesc at hab hbc ⊢
    simp only [compareSemver_le_zero_iff] at hab hbc ⊢
    omega⟩

/-- `Array.prototype.sort` with the comparator of `src/init.js:179` —
descending by `(major, minor, patch)`. ES2019 requires the sort to be
stable, and for a consistent comparator the stable sorted permutation is
unique, so the stable `insertionSort` is an exact model. -/
def sortDesc (l : List Candidate) : List Candidate :=
  l.insertionSort rDesc

/-- `pickElectronVersion` (`src/init.js:163-191`): the Exact pool sorted
descending, else the Lower pool, else the whole candidate pool tagged
`any`; `null` when no candidate exists. (`exact.length > 0` followed by
`exact.sort(...)[0]` is the head of the sorted pool, and
`candidates[0] ? ... : null` is the `Option.map` over the head.) -/
def pickElectronVersion (releases : List RawRelease) (nodeMajor : Option Int) :
    Option Picked :=
  match (sortDesc (exactPool releases nodeMajor)).head? with
  | some r => some ⟨r.version, r.node, r.nodeMajor, MatchKind.exact⟩
  | none =>
    match (sortDesc (lowerPool releases nodeMajor)).head? with
    | some r => some ⟨r.version, r.node, r.nodeMajor, MatchKind.lower⟩
    | none =>
      ((sortDesc (candidatePool releases)).head?).map
        (fun r => ⟨r.version, r.node, r.nodeMajor, MatchKind.any⟩)

theorem rDesc_refl (a : Candidate) : rDesc a a := by
  unfold rDesc
  rw [compareSemver_self]

/-- The head of the descending sort is a maximum of the list under the
`(major, minor, patch)` comparison. -/
theorem sortDesc_head_max {l : List Candidate} (hl : l ≠ []) :
    ∃ c, (sortDesc l).head? = some c ∧ c ∈ l ∧ ∀ d ∈ l, rDesc c d := by
  have hperm : (sortDesc l).Perm l := List.perm_insertionSort rDesc l
  have hsorted : List.Sorted rDesc (sortDesc l) :=
    List.sorted_insertionSort rDesc l
  rcases hs : sortDesc l with _ | ⟨c, rest⟩
  · exact absurd (List.Perm.nil_eq (hs ▸ hperm)).symm hl
  · have hmemc : c ∈ l := hperm.subset (hs ▸ List.mem_cons_self c rest)
    refine ⟨c, by simp, hmemc, fun d hd => ?_⟩
    have hdmem : d ∈ sortDesc l := hperm.symm.subset hd
    rw [hs] at hdmem
    rcases List.mem_cons.mp hdmem with hdc | hdr
    · exact hdc ▸ rDesc_refl c
    · have := List.sorted_cons.mp (hs ▸ hsorted)
      exact this.1 d hdr

/-! ### C1: exact match wins -/

/-- The release list of the spec's concrete Exact-match scenario:
versions 22/21/23 with bundled node majors 20/18/21. -/
def c1Releases : List RawRelease :=
  [⟨some "22", none, some "20", none⟩,
   ⟨some "21", none, some "18", none⟩,
   ⟨some "23", none, some "21", none⟩]

/-- C1 — whenever the Exact pool (candidates whose bundled node major
equals the local major) is non-empty, `pickElectronVersion` returns a
member of that pool tagged `exact` that is maximal under the
`(major, minor, patch)` comparison; in particular, with local major 20
and candidates `[{22, major 20}, {21, major 18}, {23, major 21}]` it
returns version `"22"` tagged `exact`. -/
theorem pickElectronVersion_exact_max :
    (∀ (releases : List RawRelease) (m : Int),
      exactPool releases (some m) ≠ [] →
      ∃ c ∈ exactPool releases (some m),
        pickElectronVersion releases (some m) =
          some ⟨c.version, c.node, c.nodeMajor, MatchKind.exact⟩ ∧
        ∀ d ∈ exactPool releases (some m),
          compareSemver (parseSemver d.version) (parseSemver c.version) ≤ 0) ∧
    pickElectronVersion c1Releases (some 20) =
      some ⟨"22", "20", some 20, MatchKind.exact⟩ := by
  constructor
  · intro releases m h
    obtain ⟨c, hhead, hmem, hmax⟩ := sortDesc_head_max h
    refine ⟨c, hmem, ?_, fun d hd => hmax d hd⟩
    unfold pickElectronVersion
    rw [hhead]
  · decide

/-- C1 witness — the Exact-pool law applied to the concrete release list
with local major 20. -/
theorem pickElectronVersion_exact_max_witness :
    ∃ c ∈ exactPool c1Releases (some 20),
      pickElectronVersion c1Releases (some 20) =
        some ⟨c.version, c.node, c.nodeMajor, MatchKind.exact⟩ ∧
      ∀ d ∈ exactPool c1Releases (some 20),
        compareSemver (parseSemver d.version) (parseSemver c.version) ≤ 0 :=
  pickElectronVersion_exact_max.1 c1Releases 20 (by decide)

/-! ### C8: behaviour when the local major is null -/

/-- A release whose bundled node major parses to `-1`. -/
def c8NegRelease : RawRelease := ⟨some "1.0.0", none, some "-1", none⟩

/-- The release list for the C8 witness: bundled majors 21 and 18, both
non-negative. -/
def c8Releases : List RawRelease :=
  [⟨some "23", none, some "21", none⟩,
   ⟨some "21", none, some "18", none⟩]

/-- C8 counterexample — with `localMajor = null` the Lower pool is not
forced empty: JS `<` converts `null` to `0`, so a candidate whose bundled
node major parses negative (`node: "-1"`) lands in the Lower pool and the
result is tagged `lower`, not `any`. -/
theorem pickElectronVersion_null_lower_cex :
    pickElectronVersion [c8NegRelease] none =
      some ⟨"1.0.0", "-1", some (-1), MatchKind.lower⟩ ∧
    MatchKind.lower ≠ MatchKind.any := by
  decide

theorem candidatePool_nodeMajor_ne_none {releases : List RawRelease}
    {c : Candidate} (hc : c ∈ candidatePool releases) : c.nodeMajor ≠ none := by
  unfold candidatePool at hc
  have h1 := (List.mem_filter.mp hc).1
  have hpred := (List.mem_filter.mp h1).2
  simp only [Bool.and_eq_true, Bool.not_eq_true', beq_eq_false_iff_ne] at hpred
  exact hpred.2

theorem sortDesc_nil : sortDesc [] = [] := rfl

/-- C8 (amended) — with `localMajor = null`: the Exact pool is always
empty (`===` against `null` fails for every candidate); when no candidate
has a negative bundled node major the Lower pool is empty too (JS `<`
converts `null` to `0`) and the globally newest non-pre-release candidate
is returned tagged `any` (or the empty result when the candidate pool is
empty); and `pickVersion([])` is empty for every local major. -/
theorem pickElectronVersion_null_major :
    (∀ releases : List RawRelease,
      exactPool releases none = [] ∧
      ((∀ c ∈ candidatePool releases, 0 ≤ jsNum c.nodeMajor) →
        lowerPool releases none = [] ∧
        (candidatePool releases = [] →
          pickElectronVersion releases none = none) ∧
        (candidatePool releases ≠ [] →
          ∃ c ∈ candidatePool releases,
            pickElectronVersion releases none =
              some ⟨c.version, c.node, c.nodeMajor, MatchKind.any⟩ ∧
            ∀ d ∈ candidatePool releases,
              compareSemver (parseSemver d.version)
                (parseSemver c.version) ≤ 0))) ∧
    (∀ m : Option Int, pickElectronVersion [] m = none) := by
  constructor
  · intro releases
    have hexact : exactPool releases none = [] := by
      unfold exactPool
      rw [List.filter_eq_nil_iff]
      intro c hc
      have := candidatePool_nodeMajor_ne_none hc
      simp [this]
    refine ⟨hexact, fun hnn => ?_⟩
    have hlower : lowerPool releases none = [] := by
      unfold lowerPool
      rw [List.filter_eq_nil_iff]
      intro c hc
      have h0 := hnn c hc
      unfold jsNum at h0 ⊢
      simp only [Option.getD_none, decide_eq_true_eq]
      omega
    refine ⟨hlower, ?_, ?_⟩
    · intro hpool
      unfold pickElectronVersion
      rw [hexact, hlower, hpool]
      rfl
    · intro hpool
      obtain ⟨c, hhead, hmem, hmax⟩ := sortDesc_head_max hpool
      refine ⟨c, hmem, ?_, fun d hd => hmax d hd⟩
      unfold pickElectronVersion
      rw [hexact, hlower, sortDesc_nil]
      simp only [List.head?_nil]
      rw [hhead]
      rfl
  · intro m
    rfl

/-- C8 witness — the amended law applied to a concrete release list whose
bundled majors are all non-negative: the pool is non-empty and the newest
candidate (version 23) is returned tagged `any`. -/
theorem pickElectronVersion_null_major_witness :
    ∃ c ∈ candidatePool c8Releases,
      pickElectronVersion c8Releases none =
        some ⟨c.version, c.node, c.nodeMajor, MatchKind.any⟩ ∧
      ∀ d ∈ candidatePool c8Releases,
        compareSemver (parseSemver d.version) (parseSemver c.version) ≤ 0 :=
  (((pickElectronVersion_null_major.1 c8Releases).2 (by decide)).2.2) (by decide)

/-! ### ScaffoldEngine: `copyDir` (`src/init.js:49, 787-804`) -/

/-- A directory tree as `readdirSync(..., { withFileTypes: true })` exposes
it: a directory entry is a regular file (`isFile()`), a directory
(`isDirectory()`), or something else — symbolic link, socket, … — for
which both tests are false. -/
inductive FsNode where
  | file (content : String)
  | dir (entries : List (String × FsNode))
  | other

/-- `COPY_IGNORE` (`src/init.js:49`). -/
def copyIgnore : List String := ["dist", "logs", ".git"]

/-- The non-root recursion of `copyDir` (`src/init.js:793-803`) as a tree
transform: a file is copied, a directory is copied entry by entry with
`isRoot = false` (so no name is excluded), and an entry that is neither a
file nor a directory is silently skipped (`none`). The destination starts
empty on the reuse path (the target was empty, missing, or just cleared),
so the produced tree is exactly the copied content. -/
def copyNode : FsNode → Option FsNode
  | .file c => some (.file c)
  | .other => none
  | .dir entries =>
    some (.dir (entries.attach.filterMap
      (fun e => (copyNode e.1.2).map (fun n => (e.1.1, n)))))
decreasing_by
  rcases e with ⟨⟨a, b⟩, hm⟩
  have h1 : sizeOf (a, b) < sizeOf entries := List.sizeOf_lt_of_mem hm
  simp at h1 ⊢
  omega

/-- One level of `copyDir src dest isRoot` (`src/init.js:792-803`): skip
root-level entries named in `COPY_IGNORE` (`if (isRoot && COPY_IGNORE.has
(entry.name)) continue`), then copy each remaining entry per its kind. -/
def copyDirM (isRoot : Bool) (entries : List (String × FsNode)) :
    List (String × FsNode) :=
  entries.filterMap
    (fun e => if isRoot && copyIgnore.contains e.1 then none
      else (copyNode e.2).map (fun n => (e.1, n)))

/-- A tree made only of regular files and directories, at every level. -/
inductive PlainNode : FsNode → Prop
  | file (c : String) : PlainNode (.file c)
  | dir (entries : List (String × FsNode))
      (h : ∀ e ∈ entries, PlainNode e.2) : PlainNode (.dir entries)

theorem prod_snd_sizeOf_lt {α β : Type} [SizeOf α] [SizeOf β]
    (p : α × β) : sizeOf p.2 < sizeOf p := by
  rcases p with ⟨a, b⟩
  simp

theorem copyNode_plain_of_le :
    ∀ (k : Nat) (n : FsNode), sizeOf n ≤ k →
      ∀ m, copyNode n = some m → PlainNode m := by
  intro k
  induction k with
  | zero =>
    intro n hn
    cases n <;> simp at hn
  | succ k ih =>
    intro n hn m hm
    cases n with
    | file c =>
      rw [copyNode] at hm
      cases hm
      exact PlainNode.file c
    | other => simp [copyNode] at hm
    | dir entries =>
      rw [copyNode] at hm
      cases hm
      refine PlainNode.dir _ (fun e he => ?_)
      rcases List.mem_filterMap.mp he with ⟨x, _, hx⟩
      rcases hx2 : copyNode x.1.2 with _ | n'
      · rw [hx2] at hx; simp at hx
      · rw [hx2] at hx
        simp at hx
        have hsz : sizeOf x.1.2 ≤ k := by
          have h1 : sizeOf x.1 < sizeOf entries := List.sizeOf_lt_of_mem x.2
          have h2 := prod_snd_sizeOf_lt x.1
          simp at hn
          omega
        have := ih x.1.2 hsz n' hx2
        rw [← hx]
        exact this

/-- Every tree produced by the copy is plain. -/
theorem copyNode_plain {n m : FsNode} (h : copyNode n = some m) :
    PlainNode m :=
  copyNode_plain_of_le (sizeOf n) n le_rfl m h

theorem copyNode_id_of_le :
    ∀ (k : Nat) (n : FsNode), sizeOf n ≤ k → PlainNode n →
      copyNode n = some n := by
  intro k
  induction k with
  | zero =>
    intro n hn
    cases n <;> simp at hn
  | succ k ih =>
    intro n hn hp
    cases hp with
    | file c => rw [copyNode]
    | dir entries h =>
      rw [copyNode]
      refine congrArg some (congrArg FsNode.dir ?_)
      have hcongr : ∀ x ∈ entries.attach,
          ((copyNode x.1.2).map (fun n => (x.1.1, n))) =
            (some ∘ fun (x : {e // e ∈ entries}) => x.1) x := by
        intro x _
        have hsz : sizeOf x.1.2 ≤ k := by
          have h1 : sizeOf x.1 < sizeOf entries := List.sizeOf_lt_of_mem x.2
          have h2 := prod_snd_sizeOf_lt x.1
          simp at hn
          omega
        rw [ih x.1.2 hsz (h x.1 x.2)]
        simp
      rw [List.filterMap_congr hcongr, List.filterMap_eq_map,
        List.attach_map_val entries (fun e => e)]
      simp

/-- On a plain tree the copy is the identity: nested directories are
copied in full whatever their names. -/
theorem copyNode_id {n : FsNode} (hp : PlainNode n) : copyNode n = some n :=
  copyNode_id_of_le (sizeOf n) n le_rfl hp

theorem copyDirM_false_plain {entries : List (String × FsNode)}
    (h : ∀ e ∈ entries, PlainNode e.2) : copyDirM false entries = entries := by
  unfold copyDirM
  have hcongr : ∀ e ∈ entries,
      (if false && copyIgnore.contains e.1 then none
        else (copyNode e.2).map (fun n => (e.1, n))) =
        (some ∘ fun (e : String × FsNode) => e) e := by
    intro e he
    simp only [Bool.false_and, if_false, Function.comp_apply]
    rw [copyNode_id (h e he)]
    simp
  rw [List.filterMap_congr hcongr, List.filterMap_eq_map, List.map_id']

theorem copyDirM_true_plain {entries : List (String × FsNode)}
    (h : ∀ e ∈ entries, PlainNode e.2) :
    copyDirM true entries =
      entries.filter (fun e => !(copyIgnore.contains e.1)) := by
  induction entries with
  | nil => rfl
  | cons e t iht =>
    have he := h e (List.mem_cons_self e t)
    have hrest : ∀ x ∈ t, PlainNode x.2 :=
      fun x hx => h x (List.mem_cons_of_mem e hx)
    have hstep := iht hrest
    simp only [copyDirM] at hstep ⊢
    by_cases hc : copyIgnore.contains e.1
    · have hfe : (if (true && copyIgnore.contains e.1) = true then none
          else Option.map (fun n => (e.1, n)) (copyNode e.2)) = none := by
        rw [if_pos (by rw [Bool.true_and]; exact hc)]
      rw [List.filterMap_cons_none
        (f := fun (x : String × FsNode) => if (true && copyIgnore.contains x.1) = true then none
          else Option.map (fun n => (x.1, n)) (copyNode x.2)) hfe,
        List.filter_cons, if_neg (by rw [hc]; decide)]
      exact hstep
    · have hfe : (if (true && copyIgnore.contains e.1) = true then none
          else Option.map (fun n => (e.1, n)) (copyNode e.2)) = some e := by
        rw [if_neg (by rw [Bool.true_and]; exact hc), copyNode_id he]
        simp
      have hcf : copyIgnore.contains e.1 = false := by
        simp only [Bool.not_eq_true] at hc
        exact hc
      rw [List.filterMap_cons_some
        (f := fun (x : String × FsNode) => if (true && copyIgnore.contains x.1) = true then none
          else Option.map (fun n => (x.1, n)) (copyNode x.2)) hfe,
        List.filter_cons, if_pos (by rw [hcf]; decide)]
      rw [hstep]

/-! ### C3: root-level exclusion set -/

/-- C3 — the copy's name-based exclusion is exactly `{dist, logs, .git}`
and applies only at the root level: on trees of regular files and
directories, the root copy keeps exactly the entries whose name is outside
`COPY_IGNORE`, the non-root copy keeps every entry unchanged (a nested
directory is copied in full even when its name is in the exclusion set),
and copying `{a.txt, dist/, logs/, .git/}` into an empty target yields
exactly `a.txt`. -/
theorem copyDir_root_exclusion :
    (∀ n, PlainNode n → copyNode n = some n) ∧
    (∀ entries : List (String × FsNode), (∀ e ∈ entries, PlainNode e.2) →
      copyDirM true entries =
        entries.filter (fun e => !(copyIgnore.contains e.1)) ∧
      copyDirM false entries = entries) ∧
    copyDirM true
      [("a.txt", .file "A"),
       ("dist", .dir [("bundle.js", .file "B")]),
       ("logs", .dir [("x.log", .file "L")]),
       (".git", .dir [("HEAD", .file "H")])] = [("a.txt", .file "A")] := by
  refine ⟨fun n hp => copyNode_id hp,
    fun entries h => ⟨copyDirM_true_plain h, copyDirM_false_plain h⟩, ?_⟩
  simp [copyDirM, copyNode, copyIgnore]

/-- C3 witness — the exclusion law applied to a concrete plain tree that
has a directory named `dist` both at the root (excluded) and nested below
the root (copied in full). -/
theorem copyDir_root_exclusion_witness :
    copyDirM true
        [("dist", .dir [("bundle.js", .file "B")]),
         ("keep", .dir [("dist", .dir [("bundle.js", .file "B")])])] =
      [("keep", .dir [("dist", .dir [("bundle.js", .file "B")])])] ∧
    copyDirM false [("dist", .dir [("bundle.js", .file "B")])] =
      [("dist", .dir [("bundle.js", .file "B")])] := by
  have hplain : ∀ (s : String),
      PlainNode (.dir [("bundle.js", FsNode.file "B")]) := by
    intro s
    refine PlainNode.dir _ (fun e he => ?_)
    simp at he
    rw [he]
    exact PlainNode.file "B"
  have h1 := (copyDir_root_exclusion.2.1
    [("dist", .dir [("bundle.js", .file "B")]),
     ("keep", .dir [("dist", .dir [("bundle.js", .file "B")])])]
    (by
      intro e he
      simp at he
      rcases he with he | he <;> rw [he]
      · exact hplain "d"
      · refine PlainNode.dir _ (fun x hx => ?_)
        simp at hx
        rw [hx]
        exact hplain "d"))
  have h2 := (copyDir_root_exclusion.2.1
    [("dist", .dir [("bundle.js", .file "B")])]
    (by
      intro e he
      simp at he
      rw [he]
      exact hplain "d"))
  refine ⟨?_, h2.2⟩
  rw [h1.1]
  simp [copyIgnore]

/-! ### C10: non-file non-directory entries are omitted -/

/-- C10 — entries that are neither regular files nor directories (e.g.
symbolic links) are silently omitted at every level of the copy: the
copy of such a node is `none`, every tree the copy produces is plain
(contains only regular files and directories), and concretely a root
symlink entry disappears from the copied tree. -/
theorem copyDir_omits_special :
    copyNode FsNode.other = none ∧
    (∀ n m, copyNode n = some m → PlainNode m) ∧
    (∀ (isRoot : Bool) (entries : List (String × FsNode)),
      ∀ e ∈ copyDirM isRoot entries, PlainNode e.2) ∧
    copyDirM true [("ok.txt", .file "x"), ("bin", .other)] =
      [("ok.txt", .file "x")] := by
  refine ⟨by rw [copyNode], fun n m h => copyNode_plain h, ?_, ?_⟩
  · intro isRoot entries e he
    rcases List.mem_filterMap.mp he with ⟨x, _, hx⟩
    by_cases hig : isRoot && copyIgnore.contains x.1
    · rw [if_pos hig] at hx
      simp at hx
    · rw [if_neg hig] at hx
      rcases hc : copyNode x.2 with _ | n'
      · rw [hc] at hx; simp at hx
      · rw [hc] at hx
        simp at hx
        have := copyNode_plain hc
        rw [← hx]
        exact this
  · simp [copyDirM, copyNode, copyIgnore]

/-- C10 witness — the plainness law applied at a concrete input: copying
a directory that contains a symlink yields the directory without it, and
the result is plain. -/
theorem copyDir_omits_special_witness :
    copyNode (FsNode.dir [("ln", FsNode.other)]) = some (FsNode.dir []) ∧
    PlainNode (FsNode.dir []) := by
  have h : copyNode (FsNode.dir [("ln", FsNode.other)]) =
      some (FsNode.dir []) := by
    simp [copyNode]
  exact ⟨h, copyDir_omits_special.2.1 _ _ h⟩

/-! ### The interactive `main` flow (`src/init.js:843-1115`) -/

/-- What a directory path currently holds, as `fs.existsSync` plus
`isEmptyDir` (`src/init.js:100-104`) observe it: absent, an empty
directory, or a non-empty directory. -/
inductive DirState where
  | missing
  | empty
  | nonempty
deriving DecidableEq

/-- The externally observable effects of one run, in order: the recursive
delete of the target (`fs.rmSync`, `src/init.js:885`), the recursive
template copy (`copyDir`, `src/init.js:908`), the populate phase (the
`ensureDir`/`writeFile` batch of `src/init.js:1024-1104`), and the two
`npm install` subprocesses (`src/init.js:1110-1111`). -/
inductive Ev where
  | rmTarget
  | copyTemplate
  | populate
  | installRoot
  | installFrontend
deriving DecidableEq

/-- One run's environment: CLI flags, tool probes, the resolved paths, the
initial filesystem, the user's raw prompt answers, and the outcomes of the
external collaborators (release fetch, copy, installs). `fs0` maps a
resolved path to its `DirState`; `rootStatus`/`frontStatus` are
`spawnSync(...).status` with `none` for a `null` status. -/
structure World where
  force : Bool
  nodeVer : Option String
  npmOk : Bool
  targetPath : String
  templatePath : String
  fs0 : String → DirState
  overwriteAnswer : String
  reuseAnswer : String
  copyOk : Bool
  releases : Option (List RawRelease)
  manualAnswer : String
  installAnswer : String
  rootStatus : Option Int
  frontStatus : Option Int

/-- JS `String.prototype.trim` on characters: whitespace dropped from
both ends. -/
def jsTrimL (l : List Char) : List Char :=
  ((l.dropWhile isJsSpace).reverse.dropWhile isJsSpace).reverse

/-- JS `String.prototype.toLowerCase`, restricted to the ASCII range the
prompt answers are compared against (`y`/`yes`). -/
def jsToLowerChar (c : Char) : Char :=
  if 'A' ≤ c ∧ c ≤ 'Z' then Char.ofNat (c.toNat + 32) else c

/-- `confirm` (`src/init.js:132-138`) composed with `promptLine`'s
trimming (`src/init.js:123-130`): empty answer takes the default,
otherwise only `y`/`yes` (case-insensitive) is affirmative. -/
def confirmVal (answer : String) (defaultYes : Bool) : Bool :=
  let v := jsTrimL answer.data
  if v = [] then defaultYes
  else v.map jsToLowerChar = ['y'] || v.map jsToLowerChar = ['y', 'e', 's']

/-- The resolved target directory (`src/init.js:863-872`): under `--force`
it is the resolved `TEMPLATE_DIR`, otherwise the resolved prompt answer. -/
def targetOf (w : World) : String :=
  if w.force then w.templatePath else w.targetPath

/-- The two sequential `npm install` invocations (`src/init.js:1110-1111`);
`runNpmInstall` exits with code 1 whenever `install.status !== 0`
(`src/init.js:828-840`), which includes a `null` status. -/
def installPhase (w : World) : List Ev × Nat :=
  if w.rootStatus = some 0 then
    if w.frontStatus = some 0 then ([Ev.installRoot, Ev.installFrontend], 0)
    else ([Ev.installRoot, Ev.installFrontend], 1)
  else ([Ev.installRoot], 1)

/-- Electron-version selection and the populate phase
(`src/init.js:978-1114`): pick from the fetched releases, else prompt for
a manual version (empty answer aborts, `src/init.js:994-1003`), confirm
the install (declining aborts, `src/init.js:1016-1022`), then write the
scaffold and run the two installs. -/
def installConfirmPhase (w : World) : List Ev × Nat :=
  if confirmVal w.installAnswer true then
    (Ev.populate :: (installPhase w).1, (installPhase w).2)
  else ([], 1)

/-- The auto-selected Electron version (`src/init.js:982-992`): `null`
when the fetch failed or was not an array, else `pickElectronVersion`
on the releases and the local node major. -/
def selectedOf (w : World) : Option Picked :=
  match w.releases with
  | some rs => pickElectronVersion rs (parseMajor (w.nodeVer.getD ""))
  | none => none

def scaffoldPhase (w : World) : List Ev × Nat :=
  match selectedOf w with
  | some _ => installConfirmPhase w
  | none =>
    if jsTrimL w.manualAnswer.data = [] then ([], 1)
    else installConfirmPhase w

/-- The reuse branch (`src/init.js:888-918`), entered when `--force` is
absent and the user confirms reuse: abort if the template directory is
missing or empty (`src/init.js:897-901`); return in place when template
and target resolve identically (`src/init.js:902-906`); otherwise copy,
aborting if the copy throws (`src/init.js:907-916`). `fs1` is the
filesystem after the optional clear step. -/
def reusePhase (w : World) (targetDir : String) (fs1 : String → DirState) :
    List Ev × Nat :=
  if fs1 w.templatePath = DirState.nonempty then
    if w.templatePath = targetDir then ([], 0)
    else if w.copyOk then ([Ev.copyTemplate], 0)
    else ([Ev.copyTemplate], 1)
  else ([], 1)

/-- Everything after the overwrite gate: the reuse branch when chosen,
otherwise the scaffold path (`src/init.js:888-1114`). -/
def afterClear (w : World) (targetDir : String) (fs1 : String → DirState) :
    List Ev × Nat :=
  if !w.force && confirmVal w.reuseAnswer false then reusePhase w targetDir fs1
  else scaffoldPhase w

/-- The filesystem after `fs.rmSync(targetDir, { recursive: true, force:
true })` (`src/init.js:885`): the target path is gone, everything else is
untouched. -/
def clearedFs (w : World) : String → DirState :=
  fun p => if p = targetOf w then DirState.missing else w.fs0 p

/-- `main` (`src/init.js:843-1115`) as a trace: abort when `node` or `npm`
is unavailable (`src/init.js:844-854`); if the target exists and is
non-empty, require `--force` or an affirmative overwrite answer — decline
exits 1, assent clears the target recursively (`src/init.js:874-886`) —
then continue with the possibly-cleared filesystem. -/
def mainTrace (w : World) : List Ev × Nat :=
  if w.nodeVer = none then ([], 1)
  else if w.npmOk = false then ([], 1)
  else if w.fs0 (targetOf w) = DirState.nonempty then
    if w.force || confirmVal w.overwriteAnswer false then
      (Ev.rmTarget :: (afterClear w (targetOf w) (clearedFs w)).1,
        (afterClear w (targetOf w) (clearedFs w)).2)
    else ([], 1)
  else afterClear w (targetOf w) w.fs0

/-! ### Shapes of the phase traces -/

theorem installPhase_shape (w : World) :
    (w.rootStatus = some 0 ∧
      (installPhase w).1 = [Ev.installRoot, Ev.installFrontend]) ∨
    (w.rootStatus ≠ some 0 ∧ (installPhase w).1 = [Ev.installRoot] ∧
      (installPhase w).2 = 1) := by
  unfold installPhase
  by_cases h : w.rootStatus = some 0
  · left
    refine ⟨h, ?_⟩
    rw [if_pos h]
    split_ifs <;> rfl
  · right
    exact ⟨h, by rw [if_neg h], by rw [if_neg h]⟩

theorem installConfirmPhase_shape (w : World) :
    installConfirmPhase w = ([], 1) ∨
    installConfirmPhase w =
      (Ev.populate :: (installPhase w).1, (installPhase w).2) := by
  unfold installConfirmPhase
  split_ifs
  · right; rfl
  · left; rfl

theorem scaffoldPhase_cases (w : World) :
    scaffoldPhase w = ([], 1) ∨ scaffoldPhase w = installConfirmPhase w := by
  unfold scaffoldPhase
  rcases selectedOf w with _ | p
  · split_ifs
    · left; rfl
    · right; rfl
  · right; rfl

theorem reusePhase_cases (w : World) (t : String) (f : String → DirState) :
    (reusePhase w t f).1 = [] ∨ (reusePhase w t f).1 = [Ev.copyTemplate] := by
  unfold reusePhase
  split_ifs <;> simp

theorem afterClear_cases (w : World) (t : String) (f : String → DirState) :
    afterClear w t f = reusePhase w t f ∨ afterClear w t f = scaffoldPhase w := by
  unfold afterClear
  split_ifs
  · left; rfl
  · right; rfl

/-- Every run trace is either free of install events, or ends with the
populate step followed by the install phase, after a prefix that is at
most the clear step. -/
theorem mainTrace_shape (w : World) :
    (Ev.installRoot ∉ (mainTrace w).1 ∧ Ev.installFrontend ∉ (mainTrace w).1) ∨
    (∃ pre, (pre = [] ∨ pre = [Ev.rmTarget]) ∧
      (mainTrace w).1 = pre ++ Ev.populate :: (installPhase w).1 ∧
      (mainTrace w).2 = (installPhase w).2) := by
  have hbody : ∀ (t : String) (f : String → DirState),
      ((Ev.installRoot ∉ (afterClear w t f).1 ∧
        Ev.installFrontend ∉ (afterClear w t f).1) ∨
      ((afterClear w t f).1 = Ev.populate :: (installPhase w).1 ∧
        (afterClear w t f).2 = (installPhase w).2)) := by
    intro t f
    rcases afterClear_cases w t f with hac | hac
    · rw [hac]
      left
      rcases reusePhase_cases w t f with hr | hr <;> rw [hr] <;> simp
    · rw [hac]
      rcases scaffoldPhase_cases w with hs | hs
      · rw [hs]
        left
        simp
      · rw [hs]
        rcases installConfirmPhase_shape w with hi | hi
        · rw [hi]
          left
          simp
        · rw [hi]
          right
          exact ⟨rfl, rfl⟩
  unfold mainTrace
  split_ifs with h1 h2 h3 h4
  · left; simp
  · left; simp
  · rcases hbody (targetOf w) (clearedFs w) with ⟨hr, hf⟩ | ⟨htr, hex⟩
    · left
      constructor
      · intro hmem
        rcases List.mem_cons.mp hmem with hmem | hmem
        · exact absurd hmem (by decide)
        · exact hr hmem
      · intro hmem
        rcases List.mem_cons.mp hmem with hmem | hmem
        · exact absurd hmem (by decide)
        · exact hf hmem
    · right
      exact ⟨[Ev.rmTarget], Or.inr rfl, by rw [htr]; rfl, hex⟩
  · left; simp
  · rcases hbody (targetOf w) w.fs0 with ⟨hr, hf⟩ | ⟨htr, hex⟩
    · left; exact ⟨hr, hf⟩
    · right
      exact ⟨[], Or.inl rfl, by rw [htr]; rfl, hex⟩

/-! ### C9: sequential installs, first failure aborts -/

/-- C9 — the two `npm install` invocations are sequential steps: the
frontend install happens only immediately after a root install whose exit
status was `0`, and whenever the root install's status is non-zero the run
exits with code 1 with the frontend install never attempted. -/
theorem main_installs_sequential (w : World) :
    (Ev.installFrontend ∈ (mainTrace w).1 →
      w.rootStatus = some 0 ∧
      ∃ pre, (mainTrace w).1 =
        pre ++ [Ev.populate, Ev.installRoot, Ev.installFrontend]) ∧
    (Ev.installRoot ∈ (mainTrace w).1 → w.rootStatus ≠ some 0 →
      (mainTrace w).2 = 1 ∧ Ev.installFrontend ∉ (mainTrace w).1 ∧
      ∃ pre, (mainTrace w).1 = pre ++ [Ev.populate, Ev.installRoot]) := by
  constructor
  · intro hf
    rcases mainTrace_shape w with ⟨_, hno⟩ | ⟨pre, hpre, htr, _⟩
    · exact absurd hf hno
    · rcases installPhase_shape w with ⟨h0, hip⟩ | ⟨h0, hip, _⟩
      · refine ⟨h0, pre, ?_⟩
        rw [htr, hip]
      · exfalso
        rw [htr, hip] at hf
        rcases List.mem_append.mp hf with hf | hf
        · rcases hpre with hpre | hpre <;> rw [hpre] at hf <;> simp at hf
        · simp at hf
  · intro hr h0
    rcases mainTrace_shape w with ⟨hno, _⟩ | ⟨pre, hpre, htr, hex⟩
    · exact absurd hr hno
    · rcases installPhase_shape w with ⟨h0c, _⟩ | ⟨_, hip, hex1⟩
      · exact absurd h0c h0
      · refine ⟨by rw [hex, hex1], ?_, pre, by rw [htr, hip]⟩
        rw [htr, hip]
        intro hmem
        rcases List.mem_append.mp hmem with hmem | hmem
        · rcases hpre with hpre | hpre <;> rw [hpre] at hmem <;> simp at hmem
        · simp at hmem

/-- The C9 witness world: `--force` with an absent target skips every
prompt gate, the release fetch failed, a manual version was entered, the
install confirmation is the default yes, and the root install exits 2. -/
def c9World : World :=
  { force := true
    nodeVer := some "20.11.1"
    npmOk := true
    targetPath := "init_src_abs"
    templatePath := "init_src_abs"
    fs0 := fun _ => DirState.missing
    overwriteAnswer := ""
    reuseAnswer := ""
    copyOk := true
    releases := none
    manualAnswer := "30.0.0"
    installAnswer := ""
    rootStatus := some 2
    frontStatus := some 0 }

/-- C9 witness — in the concrete failing-root-install world the run exits
1, the frontend install is never attempted, and the trace ends at the root
install. -/
theorem main_installs_sequential_witness :
    (mainTrace c9World).2 = 1 ∧
    Ev.installFrontend ∉ (mainTrace c9World).1 ∧
    ∃ pre, (mainTrace c9World).1 = pre ++ [Ev.populate, Ev.installRoot] :=
  (main_installs_sequential c9World).2 (by decide) (by decide)

/-! ### C2: the destructive clear is gated -/

theorem rmTarget_not_afterClear (w : World) (t : String)
    (f : String → DirState) : Ev.rmTarget ∉ (afterClear w t f).1 := by
  rcases afterClear_cases w t f with h | h <;> rw [h]
  · rcases reusePhase_cases w t f with h2 | h2 <;> rw [h2] <;> simp
  · rcases scaffoldPhase_cases w with h2 | h2 <;> rw [h2]
    · simp
    · rcases installConfirmPhase_shape w with h3 | h3 <;> rw [h3]
      · simp
      · intro hmem
        rcases List.mem_cons.mp hmem with hmem | hmem
        · exact absurd hmem (by decide)
        · rcases installPhase_shape w with ⟨_, h4⟩ | ⟨_, h4, _⟩ <;>
            rw [h4] at hmem <;> simp at hmem

/-- C2 — in a run whose `node`/`npm` prerequisite checks pass, the
recursive delete of the target happens exactly when the target exists
non-empty and either `--force` was given or the overwrite prompt was
answered affirmatively; with a non-empty target, no force flag and a
non-affirmative answer the run exits with code 1 and the delete never
happens. (The delete event occurs nowhere else in the whole flow.) -/
theorem main_clear_gated (w : World) (hN : w.nodeVer ≠ none)
    (hM : w.npmOk = true) :
    (Ev.rmTarget ∈ (mainTrace w).1 ↔
      (w.fs0 (targetOf w) = DirState.nonempty ∧
        (w.force = true ∨ confirmVal w.overwriteAnswer false = true))) ∧
    (w.fs0 (targetOf w) = DirState.nonempty → w.force = false →
      confirmVal w.overwriteAnswer false = false →
      (mainTrace w).2 = 1 ∧ Ev.rmTarget ∉ (mainTrace w).1) := by
  unfold mainTrace
  rw [if_neg hN, if_neg (by rw [hM]; decide)]
  by_cases h3 : w.fs0 (targetOf w) = DirState.nonempty
  · rw [if_pos h3]
    by_cases h4 : (w.force || confirmVal w.overwriteAnswer false) = true
    · rw [if_pos h4]
      constructor
      · constructor
        · intro _
          exact ⟨h3, Bool.or_eq_true_iff.mp h4⟩
        · intro _
          exact List.mem_cons_self _ _
      · intro _ hf hc
        rw [hf, hc] at h4
        simp at h4
    · rw [if_neg h4]
      constructor
      · constructor
        · intro hmem
          simp at hmem
        · rintro ⟨_, hor⟩
          exfalso
          rcases hor with hf | hc
          · exact h4 (by rw [hf]; rfl)
          · exact h4 (by rw [hc]; simp)
      · intro _ _ _
        exact ⟨rfl, by simp⟩
  · rw [if_neg h3]
    constructor
    · constructor
      · intro hmem
        exact absurd hmem (rmTarget_not_afterClear w _ _)
      · rintro ⟨hc, _⟩
        exact absurd hc h3
    · intro hc
      exact absurd hc h3

/-- The C2 witness world: a non-empty target, no force flag, and the
overwrite prompt answered `n`. -/
def c2World : World :=
  { force := false
    nodeVer := some "20.11.1"
    npmOk := true
    targetPath := "my_app_abs"
    templatePath := "init_src_abs"
    fs0 := fun p => if p = "my_app_abs" then DirState.nonempty
      else DirState.missing
    overwriteAnswer := "n"
    reuseAnswer := ""
    copyOk := true
    releases := none
    manualAnswer := "30.0.0"
    installAnswer := ""
    rootStatus := some 0
    frontStatus := some 0 }

/-- C2 witness — in the concrete declined-overwrite world the run exits 1
and the destructive delete is never invoked. -/
theorem main_clear_gated_witness :
    (mainTrace c2World).2 = 1 ∧ Ev.rmTarget ∉ (mainTrace c2World).1 :=
  (main_clear_gated c2World (by decide) rfl).2 (by decide) rfl (by decide)

/-! ### C4: reuse with template path equal to target path -/

/-- The C4 world: target and template resolve to the same path, the shared
directory is non-empty, and the user confirms both the overwrite and the
reuse prompts. -/
def c4World : World :=
  { force := false
    nodeVer := some "20.11.1"
    npmOk := true
    targetPath := "init_src_abs"
    templatePath := "init_src_abs"
    fs0 := fun _ => DirState.nonempty
    overwriteAnswer := "y"
    reuseAnswer := "y"
    copyOk := true
    releases := none
    manualAnswer := ""
    installAnswer := ""
    rootStatus := some 0
    frontStatus := some 0 }

/-- C4 counterexample — the run is not a filesystem no-op for every
starting state: with the cache and target at the identical non-empty path
and both prompts confirmed, the overwrite step recursively deletes the
shared directory before the reuse branch aborts (template now missing,
exit 1) — the trees are not left byte-identical. -/
theorem main_reuse_inplace_cex :
    mainTrace c4World = ([Ev.rmTarget], 1) ∧
    (mainTrace c4World).1 ≠ [] := by
  decide

/-- C4 (amended) — when the reuse path is chosen and the template path
equals the resolved target path, no copy is ever performed and the run
always exits with code 1 (the in-place skip branch is unreachable
sequentially: a non-empty shared directory triggers the clear step first,
after which the template-missing check fails, and an empty or missing one
fails that check directly); the filesystem is untouched except that the
shared directory is cleared exactly when it was non-empty and the
overwrite prompt was confirmed. -/
theorem main_reuse_inplace (w : World) (hN : w.nodeVer ≠ none)
    (hM : w.npmOk = true) (hF : w.force = false)
    (hR : confirmVal w.reuseAnswer false = true)
    (hEq : w.templatePath = targetOf w) :
    (mainTrace w).2 = 1 ∧
    Ev.copyTemplate ∉ (mainTrace w).1 ∧
    ((mainTrace w).1 = [] ∨ (mainTrace w).1 = [Ev.rmTarget]) ∧
    ((mainTrace w).1 = [Ev.rmTarget] ↔
      (w.fs0 (targetOf w) = DirState.nonempty ∧
        confirmVal w.overwriteAnswer false = true)) := by
  have hac : ∀ f, afterClear w (targetOf w) f = reusePhase w (targetOf w) f := by
    intro f
    unfold afterClear
    rw [if_pos (by rw [hF, hR]; rfl)]
  unfold mainTrace
  rw [if_neg hN, if_neg (by rw [hM]; decide)]
  by_cases h3 : w.fs0 (targetOf w) = DirState.nonempty
  · rw [if_pos h3]
    by_cases h4 : (w.force || confirmVal w.overwriteAnswer false) = true
    · rw [if_pos h4]
      have hre : reusePhase w (targetOf w) (clearedFs w) = ([], 1) := by
        unfold reusePhase
        have hcf : clearedFs w w.templatePath = DirState.missing := by
          simp only [clearedFs]
          rw [if_pos hEq]
        rw [hcf, if_neg (by decide)]
      rw [hac, hre]
      refine ⟨rfl, by simp, Or.inr rfl, ?_⟩
      constructor
      · intro _
        refine ⟨h3, ?_⟩
        rw [hF] at h4
        simpa using h4
      · intro _
        rfl
    · rw [if_neg h4]
      refine ⟨rfl, by simp, Or.inl rfl, ?_⟩
      constructor
      · intro h
        simp at h
      · rintro ⟨_, hc⟩
        exact absurd (by rw [hF, hc]; rfl) h4
  · rw [if_neg h3]
    have hre : reusePhase w (targetOf w) w.fs0 = ([], 1) := by
      unfold reusePhase
      rw [hEq, if_neg h3]
    rw [hac, hre]
    refine ⟨rfl, by simp, Or.inl rfl, ?_⟩
    constructor
    · intro h
      simp at h
    · rintro ⟨hc, _⟩
      exact absurd hc h3

/-- C4 witness — the amended law applied to the concrete shared-path
world: exit 1, no copy, and the only filesystem effect is the confirmed
clear. -/
theorem main_reuse_inplace_witness :
    (mainTrace c4World).2 = 1 ∧
    Ev.copyTemplate ∉ (mainTrace c4World).1 ∧
    ((mainTrace c4World).1 = [] ∨ (mainTrace c4World).1 = [Ev.rmTarget]) ∧
    ((mainTrace c4World).1 = [Ev.rmTarget] ↔
      (c4World.fs0 (targetOf c4World) = DirState.nonempty ∧
        confirmVal c4World.overwriteAnswer false = true)) :=
  main_reuse_inplace c4World (by decide) rfl rfl (by decide) (by decide)
